import Mathlib

/-!
A shallow embedding of apt-local (src/apt-local.py) and proofs about its
install-set resolution and package-specifier model.

The embedding covers the decision logic of the program:

* `parseSpec` — the specifier-splitting logic of `iter_pkg_versions`
  (lines 77-88): scan for the delimiter `=` first, then `_`; the first
  delimiter present splits the token with Python's `str.split`, and the
  two-way unpacking `name, version = name.split(sep)` raises when the
  split does not produce exactly two parts.
* `iter_pkg_versions_step` — one loop iteration of the generator
  `iter_pkg_versions`: resolve the token against the cache, set the
  candidate when a version was named, and yield the package.
* `cmd_install` (lines 91-120) — default pass marking every essential or
  required package, token selection from `-f` files or positional
  arguments, the explicit pass marking each resolved package, and the
  final snapshot through `InstallFilter`.
* `cmd_fetch` (lines 123-133) — resolve each token and fetch one binary
  artifact (the resolved candidate) per token.

The package index (python-apt's `apt.Cache`) is an external collaborator;
it is modelled as a list of `Package` records in the index's internal
iteration order, with name lookup, candidate assignment and install
marking as in the source. Per the specification's data model the index
offers no dependency edges here; `mark_install` sets the install-intent
flag of the named package.
-/

namespace AptLocal

/-- Character strings are modelled as lists of characters (Python `str`). -/
abbrev Str := List Char

/-- One version of a package as held by the index: its version string and
its priority classification (read as `pkg.candidate.priority`). -/
structure Version where
  ver : Str
  priority : Str
deriving DecidableEq

/-- One package entry of the index. `isAuto` models the install-intent
reason flag (automatic vs manual); no operation of this program reads it.
`markedInstall` is the mutable install-intent flag (`pkg.marked_install`). -/
structure Package where
  name : Str
  versions : List Version
  candidate : Version
  essential : Bool
  isAuto : Bool
  markedInstall : Bool
deriving DecidableEq

/-- The package index: a list of packages in the index's internal
iteration order, with unique names as a python-apt invariant where a
theorem needs it. -/
abbrev Cache := List Package

/-- The fatal errors of the program: `KeyError` on a name lookup
(`cache[name]`), `KeyError` on a version lookup
(`cache[name].versions[version]`), and the `ValueError` raised by the
two-way unpacking of `str.split`. -/
inductive Err where
  | unknownPackage (name : Str)
  | versionNotFound (name ver : Str)
  | unpackError (token : Str)
deriving DecidableEq

/-- Python `s.split(sep)` for a one-character separator: splits on every
occurrence; `"".split(sep)` is `[""]`. -/
def splitOnChar (sep : Char) : Str → List Str
  | [] => [[]]
  | c :: cs =>
    if c = sep then [] :: splitOnChar sep cs
    else
      match splitOnChar sep cs with
      | [] => [[c]]
      | p :: ps => (c :: p) :: ps

/-- The specifier-splitting logic of `iter_pkg_versions` (lines 79-81 and
85-86): try the delimiters `=` then `_` in that order; the first one
present in the token splits it, and the two-way unpacking fails when the
split has more than two parts. Without a delimiter the whole token is the
name with no version constraint. -/
def parseSpec (tok : Str) : Except Err (Str × Option Str) :=
  if tok.contains '=' then
    match splitOnChar '=' tok with
    | [n, v] => .ok (n, some v)
    | _ => .error (.unpackError tok)
  else if tok.contains '_' then
    match splitOnChar '_' tok with
    | [n, v] => .ok (n, some v)
    | _ => .error (.unpackError tok)
  else .ok (tok, none)

/-- Name lookup in the index, `cache[name]`: the entry whose name matches. -/
def lookup (cache : Cache) (n : Str) : Option Package :=
  match cache with
  | [] => none
  | p :: ps => if p.name == n then some p else lookup ps n

/-- Version lookup, `pkg.versions[version]`: the version record whose
version string matches. -/
def findVersion (vs : List Version) (v : Str) : Option Version :=
  match vs with
  | [] => none
  | x :: xs => if x.ver == v then some x else findVersion xs v

/-- Candidate assignment, `pkg.candidate = ...` (line 83): set the
candidate of the package with the given name. -/
def setCandidate (cache : Cache) (n : Str) (vr : Version) : Cache :=
  cache.map (fun p => if p.name == n then { p with candidate := vr } else p)

/-- Install marking, `pkg.mark_install()`: set the install-intent flag of
the package with the given name. -/
def markInstall (cache : Cache) (n : Str) : Cache :=
  cache.map (fun p => if p.name == n then { p with markedInstall := true } else p)

/-- One iteration of the generator `iter_pkg_versions` (lines 78-88):
split the token, look the name up (`KeyError` when absent), pin the
candidate to the named version when one was given (`KeyError` when the
version is absent), and yield the package together with the updated
cache. -/
def iter_pkg_versions_step (cache : Cache) (tok : Str) : Except Err (Cache × Package) :=
  match parseSpec tok with
  | .error e => .error e
  | .ok (n, none) =>
    match lookup cache n with
    | none => .error (.unknownPackage n)
    | some p => .ok (cache, p)
  | .ok (n, some v) =>
    match lookup cache n with
    | none => .error (.unknownPackage n)
    | some p =>
      match findVersion p.versions v with
      | none => .error (.versionNotFound n v)
      | some vr => .ok (setCandidate cache n vr, { p with candidate := vr })

/-- The explicit pass of `cmd_install` (lines 110-111): the loop
`for pkg in iter_pkg_versions(cache, pkgs): pkg.mark_install()`, which
resolves one token and marks the yielded package before resolving the
next one. -/
def processTokens (cache : Cache) : List Str → Except Err Cache
  | [] => .ok cache
  | t :: ts =>
    match iter_pkg_versions_step cache t with
    | .error e => .error e
    | .ok (c, p) => processTokens (markInstall c p.name) ts

/-- The filter predicate of `cmd_install` (lines 92-94):
`InstallFilter.apply` returns `pkg.marked_install` and reads nothing
else. -/
def InstallFilter.apply (pkg : Package) : Bool :=
  pkg.markedInstall

/-- The snapshot emission of `cmd_install` (lines 113-118): iterate the
filtered cache in the index's iteration order and emit one
`(name, candidate version)` pair per package that passes
`InstallFilter.apply`. -/
def snapshot (cache : Cache) : List (Str × Str) :=
  (cache.filter (fun p => InstallFilter.apply p)).map (fun p => (p.name, p.candidate.ver))

/-- The default pass of `cmd_install` (lines 100-102): mark every package
that is essential or whose candidate priority is `required`. -/
def defaultPass (cache : Cache) : Cache :=
  cache.map (fun p =>
    if p.essential || p.candidate.priority == "required".data then
      { p with markedInstall := true }
    else p)

/-- Python `str.strip()` on ASCII whitespace, as applied to each line of
a `-f` file (line 106). -/
def isSpaceChar (c : Char) : Bool :=
  c == ' ' || c == '\t' || c == '\n' || c == '\r' || c == '\x0b' || c == '\x0c'

/-- Strip leading and trailing whitespace from a line. -/
def strip (s : Str) : Str :=
  ((s.dropWhile isSpaceChar).reverse.dropWhile isSpaceChar).reverse

/-- Token selection of `cmd_install` (lines 104-108): with no `-f` file
the positional arguments are used; otherwise the loop
`for stream in opts.file: pkgs = [l.strip() for l in list(stream)]`
rebinds the token list once per file, so the last file wins. A file is a
list of raw lines. -/
def selectPkgs (files : List (List Str)) (packages : List Str) : List Str :=
  match files with
  | [] => packages
  | _ :: _ => files.foldl (fun _ stream => stream.map strip) []

/-- The `install` command (lines 91-120): default pass, token selection,
explicit pass, then the snapshot of the resulting index state; any error
of the explicit pass aborts the command with no snapshot. -/
def cmd_install (cache : Cache) (files : List (List Str)) (packages : List Str) :
    Except Err (List (Str × Str)) :=
  match processTokens (defaultPass cache) (selectPkgs files packages) with
  | .error e => .error e
  | .ok c => .ok (snapshot c)

/-- The `fetch` command loop (lines 130-131): resolve each token with
`iter_pkg_versions` and fetch one binary artifact — the yielded package's
candidate — per token. The result collects the fetched
`(name, candidate version)` artifacts together with the final cache; no
package is ever marked for install. -/
def cmd_fetch (cache : Cache) (toks : List Str) :
    Except Err (Cache × List (Str × Str)) :=
  match toks with
  | [] => .ok (cache, [])
  | t :: ts =>
    match iter_pkg_versions_step cache t with
    | .error e => .error e
    | .ok (c, p) =>
      match cmd_fetch c ts with
      | .error e => .error e
      | .ok (c', arts) => .ok (c', (p.name, p.candidate.ver) :: arts)

/-- View of `Except` as a sum, to derive decidable equality for the
results of the commands. -/
def exceptToSum {ε α : Type} : Except ε α → Sum ε α
  | .error e => .inl e
  | .ok a => .inr a

instance {ε α : Type} [DecidableEq ε] [DecidableEq α] : DecidableEq (Except ε α) :=
  fun a b =>
    decidable_of_iff (exceptToSum a = exceptToSum b)
      (by cases a <;> cases b <;> simp [exceptToSum])

/-- Lexicographic comparison of character strings, used to state the
sortedness the specification asks of the snapshot. -/
def strLe : Str → Str → Bool
  | [], _ => true
  | _ :: _, [] => false
  | a :: as, b :: bs => if a = b then strLe as bs else decide (a < b)

/-- Sortedness of a snapshot by package name, lexicographically. -/
def sortedByName (snap : List (Str × Str)) : Prop :=
  List.Pairwise (fun a b => strLe a.1 b.1 = true) snap

instance (snap : List (Str × Str)) : Decidable (sortedByName snap) :=
  inferInstanceAs (Decidable (List.Pairwise _ snap))

/-- Concrete fixture: an optional version `1`. -/
def v1opt : Version := ⟨"1".data, "optional".data⟩

/-- Concrete fixture: an optional version `2`. -/
def v2opt : Version := ⟨"2".data, "optional".data⟩

/-- Concrete fixture: a required version `1`. -/
def v1req : Version := ⟨"1".data, "required".data⟩

/-- Concrete fixture: an essential package `a` with versions 1 and 2,
candidate 1, not yet marked. -/
def pkgA : Package := ⟨"a".data, [v1opt, v2opt], v1opt, true, false, false⟩

/-- Concrete fixture: a priority-required package `b`. -/
def pkgB : Package := ⟨"b".data, [v1req], v1req, false, false, false⟩

/-- Concrete fixture: an optional, non-essential package `c`. -/
def pkgC : Package := ⟨"c".data, [v1opt], v1opt, false, false, false⟩

/-! ### Helper lemmas about the embedding -/

theorem contains_eq_true_of_mem {s : Str} {c : Char} (h : c ∈ s) :
    s.contains c = true :=
  List.elem_eq_true_of_mem h

theorem contains_eq_false_iff {s : Str} {c : Char} :
    s.contains c = false ↔ c ∉ s := by
  constructor
  · intro h hm
    rw [contains_eq_true_of_mem hm] at h
    cases h
  · intro hm
    cases hc : s.contains c
    · rfl
    · exact absurd (List.mem_of_elem_eq_true hc) hm

theorem splitOnChar_of_not_mem {sep : Char} {s : Str} (h : sep ∉ s) :
    splitOnChar sep s = [s] := by
  induction s with
  | nil => rfl
  | cons c cs ih =>
    have hc : ¬ c = sep := fun he => h (he ▸ List.mem_cons_self c cs)
    have hcs : sep ∉ cs := fun hm => h (List.mem_cons_of_mem _ hm)
    simp [splitOnChar, hc, ih hcs]

theorem splitOnChar_single (sep : Char) (n v : Str) (hn : sep ∉ n) (hv : sep ∉ v) :
    splitOnChar sep (n ++ sep :: v) = [n, v] := by
  induction n with
  | nil => simp [splitOnChar, splitOnChar_of_not_mem hv]
  | cons c cs ih =>
    have hc : ¬ c = sep := fun he => hn (he ▸ List.mem_cons_self c cs)
    have hcs : sep ∉ cs := fun hm => hn (List.mem_cons_of_mem _ hm)
    simp [splitOnChar, hc, ih hcs]

theorem contains_of_splitOnChar_pair {sep : Char} {t n v : Str}
    (h : splitOnChar sep t = [n, v]) : t.contains sep = true := by
  cases hc : t.contains sep
  · rw [splitOnChar_of_not_mem (contains_eq_false_iff.mp hc)] at h
    cases h
  · rfl

theorem parseSpec_eq_of_eq_split {t n v : Str} (h : splitOnChar '=' t = [n, v]) :
    parseSpec t = .ok (n, some v) := by
  rw [parseSpec, if_pos (contains_of_splitOnChar_pair h), h]

theorem parseSpec_eq_of_us_split {t n v : Str} (he : t.contains '=' = false)
    (h : splitOnChar '_' t = [n, v]) : parseSpec t = .ok (n, some v) := by
  rw [parseSpec, if_neg (by rw [he]; exact Bool.false_ne_true),
    if_pos (contains_of_splitOnChar_pair h), h]

theorem parseSpec_eq_of_no_delim {t : Str} (he : t.contains '=' = false)
    (hu : t.contains '_' = false) : parseSpec t = .ok (t, none) := by
  rw [parseSpec, if_neg (by rw [he]; exact Bool.false_ne_true),
    if_neg (by rw [hu]; exact Bool.false_ne_true)]

theorem lookup_some {c : Cache} {n : Str} {p : Package} (h : lookup c n = some p) :
    (p.name == n) = true ∧ p ∈ c := by
  induction c with
  | nil => cases h
  | cons q qs ih =>
    by_cases hq : (q.name == n) = true
    · rw [lookup, if_pos hq] at h
      injection h with h'
      subst h'
      exact ⟨hq, List.mem_cons_self _ _⟩
    · rw [lookup, if_neg hq] at h
      exact ⟨(ih h).1, List.mem_cons_of_mem _ (ih h).2⟩

theorem findVersion_some {vs : List Version} {v : Str} {vr : Version}
    (h : findVersion vs v = some vr) : vr.ver = v ∧ vr ∈ vs := by
  induction vs with
  | nil => cases h
  | cons x xs ih =>
    by_cases hx : (x.ver == v) = true
    · rw [findVersion, if_pos hx] at h
      injection h with h'
      subst h'
      exact ⟨eq_of_beq hx, List.mem_cons_self _ _⟩
    · rw [findVersion, if_neg hx] at h
      exact ⟨(ih h).1, List.mem_cons_of_mem _ (ih h).2⟩

theorem lookup_map {f : Package → Package} (hf : ∀ p, (f p).name = p.name)
    (c : Cache) (n : Str) : lookup (c.map f) n = (lookup c n).map f := by
  induction c with
  | nil => rfl
  | cons p ps ih =>
    by_cases hp : (p.name == n) = true
    · rw [List.map_cons, lookup, if_pos (by rw [hf p]; exact hp), lookup, if_pos hp]
      rfl
    · rw [List.map_cons, lookup, if_neg (by rw [hf p]; exact hp), lookup, if_neg hp]
      exact ih

theorem map_obs_map {β : Type} (obs : Package → β) {f : Package → Package}
    (hf : ∀ p, obs (f p) = obs p) (c : Cache) :
    (c.map f).map obs = c.map obs := by
  induction c with
  | nil => rfl
  | cons p ps ih => simp [hf, ih]

theorem name_setCandidate (n : Str) (vr : Version) (p : Package) :
    (if p.name == n then { p with candidate := vr } else p).name = p.name := by
  by_cases h : (p.name == n) = true <;> simp [h]

theorem name_markInstall (n : Str) (p : Package) :
    (if p.name == n then { p with markedInstall := true } else p).name = p.name := by
  by_cases h : (p.name == n) = true <;> simp [h]

theorem name_defaultPassFn (p : Package) :
    (if p.essential || p.candidate.priority == "required".data then
      { p with markedInstall := true } else p).name = p.name := by
  by_cases h : (p.essential || p.candidate.priority == "required".data) = true <;> simp [h]

theorem lookup_none_setCandidate {c : Cache} {n m : Str} {vr : Version}
    (h : lookup c n = none) : lookup (setCandidate c m vr) n = none := by
  rw [setCandidate, lookup_map (name_setCandidate m vr), h]
  rfl

theorem lookup_none_markInstall {c : Cache} {n m : Str}
    (h : lookup c n = none) : lookup (markInstall c m) n = none := by
  rw [markInstall, lookup_map (name_markInstall m), h]
  rfl

theorem lookup_none_defaultPass {c : Cache} {n : Str}
    (h : lookup c n = none) : lookup (defaultPass c) n = none := by
  rw [defaultPass, lookup_map name_defaultPassFn, h]
  rfl

theorem step_lookup_none {c c₁ : Cache} {t n : Str} {p : Package}
    (h : iter_pkg_versions_step c t = .ok (c₁, p)) (hn : lookup c n = none) :
    lookup c₁ n = none := by
  unfold iter_pkg_versions_step at h
  split at h
  · cases h
  · split at h
    · cases h
    · injection h with h'
      injection h' with h₁ h₂
      subst h₁
      exact hn
  · split at h
    · cases h
    · split at h
      · cases h
      · injection h with h'
        injection h' with h₁ h₂
        subst h₁
        exact lookup_none_setCandidate hn

theorem processTokens_lookup_none {ts : List Str} {c c' : Cache} {n : Str}
    (h : processTokens c ts = .ok c') (hn : lookup c n = none) :
    lookup c' n = none := by
  induction ts generalizing c with
  | nil =>
    cases h
    exact hn
  | cons t tl ih =>
    rw [processTokens] at h
    cases hr : iter_pkg_versions_step c t with
    | error e => rw [hr] at h; cases h
    | ok r =>
      obtain ⟨c₁, p⟩ := r
      rw [hr] at h
      exact ih h (lookup_none_markInstall (step_lookup_none hr hn))

theorem processTokens_append (c : Cache) (xs ys : List Str) :
    processTokens c (xs ++ ys) =
      match processTokens c xs with
      | .ok c' => processTokens c' ys
      | .error e => .error e := by
  induction xs generalizing c with
  | nil => rfl
  | cons t ts ih =>
    rw [List.cons_append, processTokens, processTokens]
    cases hr : iter_pkg_versions_step c t with
    | error e => rfl
    | ok r => exact ih (markInstall r.1 r.2.name)

theorem lookup_of_mem {c : Cache} {p : Package}
    (hu : c.Pairwise (fun a b => a.name ≠ b.name)) (hp : p ∈ c) :
    lookup c p.name = some p := by
  induction c with
  | nil => cases hp
  | cons q qs ih =>
    rcases List.mem_cons.mp hp with rfl | hm
    · rw [lookup, if_pos (beq_self_eq_true _)]
    · have hne : q.name ≠ p.name := (List.pairwise_cons.mp hu).1 p hm
      rw [lookup, if_neg (fun hc => hne (eq_of_beq hc))]
      exact ih (List.pairwise_cons.mp hu).2 hm

theorem eq_of_name_eq_of_pairwise {c : Cache}
    (hu : c.Pairwise (fun a b => a.name ≠ b.name)) {p q : Package}
    (hp : p ∈ c) (hq : q ∈ c) (h : p.name = q.name) : p = q := by
  induction c with
  | nil => cases hp
  | cons x xs ih =>
    rcases List.mem_cons.mp hp with rfl | hp' <;>
      rcases List.mem_cons.mp hq with rfl | hq'
    · rfl
    · exact absurd h ((List.pairwise_cons.mp hu).1 q hq')
    · exact absurd h.symm ((List.pairwise_cons.mp hu).1 p hp')
    · exact ih (List.pairwise_cons.mp hu).2 hp' hq'

theorem pairwise_names_map {c : Cache} {f : Package → Package}
    (hf : ∀ p, (f p).name = p.name)
    (hu : c.Pairwise (fun a b => a.name ≠ b.name)) :
    (c.map f).Pairwise (fun a b => a.name ≠ b.name) := by
  rw [List.pairwise_map]
  exact hu.imp (fun {a b} hab => by rw [hf a, hf b]; exact hab)

theorem setCandidate_frame (c : Cache) (n : Str) (vr : Version) :
    (setCandidate c n vr).map (fun q => (q.name, q.markedInstall)) =
      c.map (fun q => (q.name, q.markedInstall)) := by
  rw [setCandidate]
  exact map_obs_map _ (fun q => by
    by_cases hq : (q.name == n) = true <;> simp [hq]) c

theorem step_frame {c c₁ : Cache} {t : Str} {p : Package}
    (h : iter_pkg_versions_step c t = .ok (c₁, p)) :
    c₁.map (fun q => (q.name, q.markedInstall)) =
      c.map (fun q => (q.name, q.markedInstall)) := by
  unfold iter_pkg_versions_step at h
  split at h
  · cases h
  · split at h
    · cases h
    · injection h with h'
      injection h' with h₁ h₂
      subst h₁
      rfl
  · split at h
    · cases h
    · split at h
      · cases h
      · injection h with h'
        injection h' with h₁ h₂
        subst h₁
        exact setCandidate_frame c _ _

theorem cmd_fetch_cons (cache : Cache) (t : Str) (ts : List Str) :
    cmd_fetch cache (t :: ts) =
      match iter_pkg_versions_step cache t with
      | .error e => .error e
      | .ok (c, p) =>
        match cmd_fetch c ts with
        | .error e => .error e
        | .ok (c', arts) => .ok (c', (p.name, p.candidate.ver) :: arts) :=
  rfl

theorem snapshot_cons (p : Package) (c : Cache) :
    snapshot (p :: c) =
      if p.markedInstall then (p.name, p.candidate.ver) :: snapshot c else snapshot c := by
  cases h : p.markedInstall <;>
    simp [snapshot, List.filter_cons, InstallFilter.apply, h]

theorem mem_snapshot {c : Cache} {n v : Str} :
    (n, v) ∈ snapshot c ↔
      ∃ p, p ∈ c ∧ p.markedInstall = true ∧ p.name = n ∧ p.candidate.ver = v := by
  simp only [snapshot, List.mem_map, List.mem_filter, InstallFilter.apply, Prod.mk.injEq]
  constructor
  · rintro ⟨p, ⟨hp, hm⟩, hn, hv⟩
    exact ⟨p, hp, hm, hn, hv⟩
  · rintro ⟨p, hp, hm, hn, hv⟩
    exact ⟨p, ⟨hp, hm⟩, hn, hv⟩

theorem cmd_fetch_cons_err {cache : Cache} {t : Str} {ts : List Str} {e : Err}
    (hr : iter_pkg_versions_step cache t = .error e) :
    cmd_fetch cache (t :: ts) = .error e := by
  rw [cmd_fetch_cons, hr]

theorem cmd_fetch_cons_ok {cache : Cache} {t : Str} {ts : List Str} {c₁ : Cache}
    {p : Package} (hr : iter_pkg_versions_step cache t = .ok (c₁, p)) :
    cmd_fetch cache (t :: ts) =
      match cmd_fetch c₁ ts with
      | .error e => .error e
      | .ok (c', arts) => .ok (c', (p.name, p.candidate.ver) :: arts) := by
  rw [cmd_fetch_cons, hr]

/-! ### Claim theorems -/

/-- Claim C3: for every input token the specifier parser scans for the
delimiter `=` first, then `_`, in that order; the first delimiter found
splits the token into name and version — the first conjunct needs no
assumption about `_`, so for a token containing both delimiters `=`
takes precedence — and if neither delimiter is present the whole token
is the name with no version constraint. -/
theorem claim_parse_delimiter_priority (t n v : Str) :
    (splitOnChar '=' t = [n, v] → parseSpec t = .ok (n, some v)) ∧
    (t.contains '=' = false → splitOnChar '_' t = [n, v] →
      parseSpec t = .ok (n, some v)) ∧
    (t.contains '=' = false → t.contains '_' = false →
      parseSpec t = .ok (t, none)) :=
  ⟨fun h => parseSpec_eq_of_eq_split h,
   fun he h => parseSpec_eq_of_us_split he h,
   fun he hu => parseSpec_eq_of_no_delim he hu⟩

/-- Witness for C3 at the specification's own examples: `foo=1.2`,
`foo_1.2`, a token holding both delimiters where `=` wins, and a bare
`foo`. -/
theorem claim_parse_delimiter_priority_witness :
    parseSpec "foo=1.2".data = .ok ("foo".data, some "1.2".data) ∧
    parseSpec "foo_1.2".data = .ok ("foo".data, some "1.2".data) ∧
    parseSpec "a_b=c".data = .ok ("a_b".data, some "c".data) ∧
    parseSpec "foo".data = .ok ("foo".data, none) :=
  ⟨(claim_parse_delimiter_priority "foo=1.2".data "foo".data "1.2".data).1 (by decide),
   (claim_parse_delimiter_priority "foo_1.2".data "foo".data "1.2".data).2.1
     (by decide) (by decide),
   (claim_parse_delimiter_priority "a_b=c".data "a_b".data "c".data).1 (by decide),
   (claim_parse_delimiter_priority "foo".data "foo".data "foo".data).2.2
     (by decide) (by decide)⟩

/-- Claim C10: a token in which a supported delimiter occurs more than
once does not yield a (name, version) pair: the two-way unpacking of the
split fails before any index lookup, so the failure is independent of the
index state and propagates out of install and fetch. -/
theorem claim_multi_delimiter_unpack_fails (cache : Cache) :
    parseSpec "a=b=c".data = .error (.unpackError "a=b=c".data) ∧
    parseSpec "a_1_2".data = .error (.unpackError "a_1_2".data) ∧
    cmd_install cache [] ["a=b=c".data] = .error (.unpackError "a=b=c".data) ∧
    cmd_fetch cache ["a_1_2".data] = .error (.unpackError "a_1_2".data) :=
  ⟨rfl, rfl, rfl, rfl⟩

/-- Claim C5: the default pass maps over every package of the index and
marks install-intent exactly for the essential or priority-required ones,
leaving every other field of every package unchanged; it runs before the
explicit pass, so planning with an empty request list emits the snapshot
of the defaulted index. The freshness hypothesis says no package carried
an install-intent flag before planning (the index is loaded fresh per
invocation). -/
theorem claim_default_pass (cache : Cache)
    (hfresh : ∀ p ∈ cache, p.markedInstall = false) :
    (∀ q ∈ defaultPass cache,
      q.markedInstall = (q.essential || q.candidate.priority == "required".data)) ∧
    (defaultPass cache).map (fun p => (p.name, p.essential, p.candidate, p.versions)) =
      cache.map (fun p => (p.name, p.essential, p.candidate, p.versions)) ∧
    cmd_install cache [] [] = .ok (snapshot (defaultPass cache)) := by
  refine ⟨?_, ?_, rfl⟩
  · intro q hq
    rw [defaultPass] at hq
    rcases List.mem_map.mp hq with ⟨p, hp, rfl⟩
    by_cases hc : (p.essential || p.candidate.priority == "required".data) = true
    · rw [if_pos hc]
      exact hc.symm
    · rw [if_neg hc, hfresh p hp]
      cases hb : (p.essential || p.candidate.priority == "required".data)
      · rfl
      · exact absurd hb hc
  · rw [defaultPass]
    exact map_obs_map _ (fun p => by
      by_cases h : (p.essential || p.candidate.priority == "required".data) = true <;>
        simp [h]) cache

/-- Witness for C5: on the index `[a (essential), b (required),
c (optional)]`, which is fresh, planning with no requests emits the
defaulted snapshot, and the optional package `c` obeys the
characterization — it remains unmarked. -/
theorem claim_default_pass_witness :
    cmd_install [pkgA, pkgB, pkgC] [] [] = .ok (snapshot (defaultPass [pkgA, pkgB, pkgC])) ∧
    pkgC.markedInstall = (pkgC.essential || pkgC.candidate.priority == "required".data) :=
  ⟨(claim_default_pass [pkgA, pkgB, pkgC] (by decide)).2.2,
   (claim_default_pass [pkgA, pkgB, pkgC] (by decide)).1 pkgC (by decide)⟩

/-- Claim C8: the snapshot computation is a pure read of the index — in
this embedding it is a function of the cache that returns no modified
cache — and it selects every package with install-intent = true
regardless of the reason: its membership is characterized by the
install-intent flag alone, rewriting every package's reason flag
arbitrarily leaves the snapshot unchanged, and the filter
`InstallFilter.apply` reads only the install-intent flag. -/
theorem claim_snapshot_pure_read (cache : Cache) (f : Package → Bool) :
    (∀ n v, ((n, v) ∈ snapshot cache ↔
      ∃ p, p ∈ cache ∧ p.markedInstall = true ∧ p.name = n ∧ p.candidate.ver = v)) ∧
    snapshot (cache.map (fun p => { p with isAuto := f p })) = snapshot cache ∧
    (∀ p : Package, InstallFilter.apply p = p.markedInstall) := by
  refine ⟨fun n v => mem_snapshot, ?_, fun p => rfl⟩
  induction cache with
  | nil => rfl
  | cons p ps ih =>
    rw [List.map_cons, snapshot_cons, snapshot_cons]
    cases h : p.markedInstall <;> simp [h, ih]

/-- Claim C9: when one or more `-f` files are given to install, the
positional package arguments are ignored entirely, and only the token
list of the last file is used — the reading loop rebinds the token list
once per file instead of concatenating. -/
theorem claim_files_last_wins (cache : Cache) (fs : List (List Str)) (f : List Str)
    (packages packages' : List Str) :
    selectPkgs (fs ++ [f]) packages = f.map strip ∧
    cmd_install cache (fs ++ [f]) packages = cmd_install cache [f] packages' := by
  have hsel : ∀ pk : List Str, selectPkgs (fs ++ [f]) pk = f.map strip := by
    intro pk
    cases fs with
    | nil => rfl
    | cons g gs =>
      show ((g :: gs) ++ [f]).foldl (fun _ stream => stream.map strip) [] = f.map strip
      rw [List.foldl_append]
      rfl
  have hsel2 : selectPkgs (fs ++ [f]) packages = selectPkgs [f] packages' :=
    hsel packages
  exact ⟨hsel packages, by simp only [cmd_install, hsel2]⟩

/-- Counterexample to claim C1 as stated: on the index whose internal
order lists `b` (required) before `a` (essential), planning with an
empty request list emits the snapshot `[(b, 1), (a, 1)]` — the index's
iteration order — which is not sorted lexicographically by package name.
The emission loop of `cmd_install` performs no sort. -/
theorem claim_install_snapshot_not_sorted :
    cmd_install [pkgB, pkgA] [] [] =
      .ok [("b".data, "1".data), ("a".data, "1".data)] ∧
    ¬ sortedByName [("b".data, "1".data), ("a".data, "1".data)] :=
  ⟨by decide, by decide⟩

/-- Claim C1 (amended): on success the install snapshot contains exactly
the packages whose install-intent flag is true after planning — one
(name, resolved candidate version) pair each, regardless of the reason —
emitted in the index's iteration order, which is deterministic for a
given final index state but not necessarily sorted by name. -/
theorem claim_install_snapshot_exact (cache c' : Cache) (files : List (List Str))
    (packages : List Str)
    (h : processTokens (defaultPass cache) (selectPkgs files packages) = .ok c') :
    cmd_install cache files packages = .ok (snapshot c') ∧
    ∀ n v, ((n, v) ∈ snapshot c' ↔
      ∃ p, p ∈ c' ∧ p.markedInstall = true ∧ p.name = n ∧ p.candidate.ver = v) :=
  ⟨by simp only [cmd_install, h], fun n v => mem_snapshot⟩

/-- Witness for the amended C1 on the index `[a, b, c]` with no explicit
requests: the command emits the snapshot of the defaulted index, and the
pair `(a, 1)` is in the snapshot exactly because the marked package `a`
has candidate version 1. -/
theorem claim_install_snapshot_exact_witness :
    cmd_install [pkgA, pkgB, pkgC] [] [] =
      .ok (snapshot (defaultPass [pkgA, pkgB, pkgC])) ∧
    (("a".data, "1".data) ∈ snapshot (defaultPass [pkgA, pkgB, pkgC]) ↔
      ∃ p, p ∈ defaultPass [pkgA, pkgB, pkgC] ∧ p.markedInstall = true ∧
        p.name = "a".data ∧ p.candidate.ver = "1".data) :=
  ⟨(claim_install_snapshot_exact [pkgA, pkgB, pkgC]
      (defaultPass [pkgA, pkgB, pkgC]) [] [] rfl).1,
   (claim_install_snapshot_exact [pkgA, pkgB, pkgC]
      (defaultPass [pkgA, pkgB, pkgC]) [] [] rfl).2 "a".data "1".data⟩

/-- Claim C2: a request list containing a specifier whose name is absent
from the index makes planning fail with the unknown-package error, and
the plan aborts as a whole: `cmd_install` returns the error and emits no
snapshot, so none of the install-intent state set during the pass is
observable as valid output. The hypotheses place the failing token `t`
anywhere in the list, with the tokens before it succeeding. -/
theorem claim_unknown_package_aborts (cache c₁ : Cache) (pre post : List Str)
    (t n : Str) (ov : Option Str)
    (h1 : processTokens (defaultPass cache) pre = .ok c₁)
    (h2 : parseSpec t = .ok (n, ov))
    (h3 : lookup cache n = none) :
    cmd_install cache [] (pre ++ t :: post) = .error (.unknownPackage n) := by
  have hn1 : lookup c₁ n = none :=
    processTokens_lookup_none h1 (lookup_none_defaultPass h3)
  have hstep : iter_pkg_versions_step c₁ t = .error (.unknownPackage n) := by
    cases ov with
    | none => simp only [iter_pkg_versions_step, h2, hn1]
    | some v => simp only [iter_pkg_versions_step, h2, hn1]
  simp only [cmd_install, selectPkgs, processTokens_append, h1, processTokens, hstep]

/-- Witness for C2: on the one-package index `[a (essential)]` the
request list `[a, zzz]` resolves `a` and then aborts on the unknown name
`zzz` with no snapshot. -/
theorem claim_unknown_package_aborts_witness :
    cmd_install [pkgA] [] ["a".data, "zzz".data] =
      .error (.unknownPackage "zzz".data) :=
  claim_unknown_package_aborts [pkgA]
    [{ pkgA with markedInstall := true }] ["a".data] [] "zzz".data "zzz".data none
    (by decide) (by decide) (by decide)

/-- Claim C4: for a specifier carrying a version, resolution pins the
candidate before the package is marked: when the named version exists,
the step returns the candidate-updated cache, the updated index reports
that candidate for the package, and the explicit pass marks the package
on the already-pinned cache; when the named version does not exist for
the (known) package, resolution fails with the version-not-found error
and the whole pass aborts. -/
theorem claim_version_pin_before_mark (cache : Cache) (t n v : Str) (p : Package)
    (hp : parseSpec t = .ok (n, some v)) (hl : lookup cache n = some p) :
    (∀ vr, findVersion p.versions v = some vr →
      vr.ver = v ∧
      iter_pkg_versions_step cache t =
        .ok (setCandidate cache n vr, { p with candidate := vr }) ∧
      lookup (setCandidate cache n vr) n = some { p with candidate := vr } ∧
      ∀ ts, processTokens cache (t :: ts) =
        processTokens (markInstall (setCandidate cache n vr) p.name) ts) ∧
    (findVersion p.versions v = none →
      iter_pkg_versions_step cache t = .error (.versionNotFound n v) ∧
      ∀ ts, processTokens cache (t :: ts) = .error (.versionNotFound n v)) := by
  constructor
  · intro vr hv
    have hstep : iter_pkg_versions_step cache t =
        .ok (setCandidate cache n vr, { p with candidate := vr }) := by
      simp only [iter_pkg_versions_step, hp, hl, hv]
    refine ⟨(findVersion_some hv).1, hstep, ?_, ?_⟩
    · rw [setCandidate, lookup_map (name_setCandidate n vr), hl, Option.map_some']
      rw [if_pos (lookup_some hl).1]
    · intro ts
      simp only [processTokens, hstep]
  · intro hv
    have hstep : iter_pkg_versions_step cache t = .error (.versionNotFound n v) := by
      simp only [iter_pkg_versions_step, hp, hl, hv]
    exact ⟨hstep, fun ts => by simp only [processTokens, hstep]⟩

/-- Witness for C4 on the index `[a (versions 1, 2)]`: the token `a=2`
pins the candidate to version 2 and the marking happens on the pinned
cache; the token `a=9` fails with the version-not-found error. -/
theorem claim_version_pin_before_mark_witness :
    ((v2opt.ver = "2".data ∧
      iter_pkg_versions_step [pkgA] "a=2".data =
        .ok (setCandidate [pkgA] "a".data v2opt, { pkgA with candidate := v2opt }) ∧
      lookup (setCandidate [pkgA] "a".data v2opt) "a".data =
        some { pkgA with candidate := v2opt } ∧
      processTokens [pkgA] ["a=2".data] =
        processTokens (markInstall (setCandidate [pkgA] "a".data v2opt) pkgA.name) []) ∧
    (iter_pkg_versions_step [pkgA] "a=9".data =
        .error (.versionNotFound "a".data "9".data) ∧
      processTokens [pkgA] ["a=9".data] =
        .error (.versionNotFound "a".data "9".data))) := by
  have h2 := (claim_version_pin_before_mark [pkgA] "a=2".data "a".data "2".data pkgA
    (by decide) (by decide)).1 v2opt (by decide)
  have h9 := (claim_version_pin_before_mark [pkgA] "a=9".data "a".data "9".data pkgA
    (by decide) (by decide)).2 (by decide)
  exact ⟨⟨h2.1, h2.2.1, h2.2.2.1, h2.2.2.2 []⟩, ⟨h9.1, h9.2 []⟩⟩

/-- Claim C7: fetch resolves each specifier through the specifier parser
and fetches exactly one binary artifact — the resolved candidate version
— per specifier: on success the artifact list has exactly one entry per
token, the head artifact is the candidate of the package resolved from
the first token, and no package's install-intent flag changes — fetch
never invokes the install planner's marking, so there is no dependency
closure and no transitive expansion of the list. -/
theorem claim_fetch_flat (cache : Cache) (toks : List Str) (c' : Cache)
    (arts : List (Str × Str)) (h : cmd_fetch cache toks = .ok (c', arts)) :
    arts.length = toks.length ∧
    c'.map (fun q => (q.name, q.markedInstall)) =
      cache.map (fun q => (q.name, q.markedInstall)) ∧
    (∀ t ts c₁ q, toks = t :: ts → iter_pkg_versions_step cache t = .ok (c₁, q) →
      arts.head? = some (q.name, q.candidate.ver)) := by
  induction toks generalizing cache c' arts with
  | nil =>
    have h0 : (Except.ok (cache, ([] : List (Str × Str))) :
        Except Err (Cache × List (Str × Str))) = .ok (c', arts) := h
    injection h0 with h'
    injection h' with h₁ h₂
    subst h₁
    subst h₂
    refine ⟨rfl, rfl, ?_⟩
    intro t ts c₁ q ht hstep
    cases ht
  | cons t ts ih =>
    cases hr : iter_pkg_versions_step cache t with
    | error e =>
      rw [cmd_fetch_cons_err hr] at h
      cases h
    | ok r =>
      obtain ⟨c₁, p⟩ := r
      rw [cmd_fetch_cons_ok hr] at h
      cases hrec : cmd_fetch c₁ ts with
      | error e =>
        rw [hrec] at h
        simp at h
      | ok s =>
        obtain ⟨c₂, rest⟩ := s
        rw [hrec] at h
        simp only [Except.ok.injEq, Prod.mk.injEq] at h
        obtain ⟨h₁, h₂⟩ := h
        subst h₁
        subst h₂
        obtain ⟨hlen, hframe, hhead⟩ := ih c₁ c₂ rest hrec
        refine ⟨?_, ?_, ?_⟩
        · rw [List.length_cons, List.length_cons, hlen]
        · rw [hframe, step_frame hr]
        · intro t' ts' c₁' q ht hstep
          injection ht with ht1 ht2
          subst ht1
          rw [hr] at hstep
          injection hstep with hs
          injection hs with hs1 hs2
          subst hs2
          rfl

/-- Witness for C7: fetching `[c, a=2]` from the index `[a, c]` yields
exactly two artifacts, the head artifact is `c`'s candidate, and the
install-intent flags of the final cache are unchanged. -/
theorem claim_fetch_flat_witness :
    ([("c".data, "1".data), ("a".data, "2".data)] : List (Str × Str)).length =
      (["c".data, "a=2".data] : List Str).length ∧
    ([⟨"a".data, [v1opt, v2opt], v2opt, true, false, false⟩, pkgC] : Cache).map
        (fun q => (q.name, q.markedInstall)) =
      ([pkgA, pkgC] : Cache).map (fun q => (q.name, q.markedInstall)) ∧
    ([("c".data, "1".data), ("a".data, "2".data)] : List (Str × Str)).head? =
      some (pkgC.name, pkgC.candidate.ver) := by
  have hm := claim_fetch_flat [pkgA, pkgC] ["c".data, "a=2".data]
    [⟨"a".data, [v1opt, v2opt], v2opt, true, false, false⟩, pkgC]
    [("c".data, "1".data), ("a".data, "2".data)] (by decide)
  exact ⟨hm.1, hm.2.1, hm.2.2 "c".data ["a=2".data] [pkgA, pkgC] pkgC rfl (by decide)⟩

/-- Claim C6: explicit override — a package `p` already marked by the
default pass (here: essential) whose versions include the requested
version is re-pinned by an explicit request `name=version`: planning
succeeds, and the snapshot reports `p` at the requested version and at
no other version, not at the original default candidate. Hypotheses: the
index has unique names (a python-apt invariant) and `=` occurs in the
request token only as the delimiter. -/
theorem claim_explicit_override (cache : Cache) (p : Package) (vr : Version) (v : Str)
    (huniq : cache.Pairwise (fun a b => a.name ≠ b.name))
    (hp : p ∈ cache) (hess : p.essential = true)
    (hv : findVersion p.versions v = some vr)
    (hn : '=' ∉ p.name) (hvc : '=' ∉ v) :
    cmd_install cache [] [p.name ++ '=' :: v] =
      .ok (snapshot (markInstall (setCandidate (defaultPass cache) p.name vr) p.name)) ∧
    (p.name, v) ∈
      snapshot (markInstall (setCandidate (defaultPass cache) p.name vr) p.name) ∧
    ∀ w, (p.name, w) ∈
        snapshot (markInstall (setCandidate (defaultPass cache) p.name vr) p.name) →
      w = v := by
  have hps : parseSpec (p.name ++ '=' :: v) = .ok (p.name, some v) :=
    parseSpec_eq_of_eq_split (splitOnChar_single '=' p.name v hn hvc)
  have hlk : lookup cache p.name = some p := lookup_of_mem huniq hp
  have hlkd : lookup (defaultPass cache) p.name =
      some { p with markedInstall := true } := by
    rw [defaultPass, lookup_map name_defaultPassFn, hlk, Option.map_some']
    rw [if_pos (by rw [hess]; rfl)]
  have hfv : findVersion (Package.versions { p with markedInstall := true }) v =
      some vr := hv
  have hstep : iter_pkg_versions_step (defaultPass cache) (p.name ++ '=' :: v) =
      .ok (setCandidate (defaultPass cache) p.name vr,
           { p with markedInstall := true, candidate := vr }) := by
    simp only [iter_pkg_versions_step, hps, hlkd, hfv]
  have hl2 : lookup (setCandidate (defaultPass cache) p.name vr) p.name =
      some { p with markedInstall := true, candidate := vr } := by
    rw [setCandidate, lookup_map (name_setCandidate p.name vr), hlkd, Option.map_some']
    rw [if_pos (beq_self_eq_true _)]
  have hl3 : lookup (markInstall (setCandidate (defaultPass cache) p.name vr) p.name)
      p.name = some { p with markedInstall := true, candidate := vr } := by
    rw [markInstall, lookup_map (name_markInstall p.name), hl2, Option.map_some']
    rw [if_pos (beq_self_eq_true _)]
  have hqmem : { p with markedInstall := true, candidate := vr } ∈
      markInstall (setCandidate (defaultPass cache) p.name vr) p.name :=
    (lookup_some hl3).2
  have hver : vr.ver = v := (findVersion_some hv).1
  have huniq₂ : (markInstall (setCandidate (defaultPass cache) p.name vr)
      p.name).Pairwise (fun a b => a.name ≠ b.name) := by
    rw [markInstall, setCandidate, defaultPass]
    exact pairwise_names_map (name_markInstall p.name)
      (pairwise_names_map (name_setCandidate p.name vr)
        (pairwise_names_map name_defaultPassFn huniq))
  refine ⟨?_, ?_, ?_⟩
  · simp only [cmd_install, selectPkgs, processTokens, hstep]
  · exact mem_snapshot.mpr ⟨{ p with markedInstall := true, candidate := vr },
      hqmem, rfl, rfl, hver⟩
  · intro w hw
    rcases mem_snapshot.mp hw with ⟨r, hr, hrm, hrn, hrv⟩
    have hrq : r = { p with markedInstall := true, candidate := vr } :=
      eq_of_name_eq_of_pairwise huniq₂ hr hqmem (by rw [hrn])
    rw [← hrv, hrq]
    exact hver

/-- Witness for C6: on the index `[a (essential, versions 1 and 2,
default candidate 1), b, c]`, the request `a=2` makes planning succeed
and the snapshot reports `a` at version 2. -/
theorem claim_explicit_override_witness :
    cmd_install [pkgA, pkgB, pkgC] [] ["a=2".data] =
      .ok (snapshot (markInstall
        (setCandidate (defaultPass [pkgA, pkgB, pkgC]) "a".data v2opt) "a".data)) ∧
    ("a".data, "2".data) ∈ snapshot (markInstall
        (setCandidate (defaultPass [pkgA, pkgB, pkgC]) "a".data v2opt) "a".data) := by
  have hm := claim_explicit_override [pkgA, pkgB, pkgC] pkgA v2opt "2".data
    (by decide) (by decide) rfl rfl (by decide) (by decide)
  exact ⟨hm.1, hm.2.1⟩

end AptLocal
